import Mathlib

/-!
# Verification of `aldy/lpinterface.py`

A shallow embedding of the ILP-interface layer of the Aldy repository
(`src/aldy/lpinterface.py`) together with proofs about its behavior.

Conventions used throughout:

* Python floats are modelled as rationals (`ℚ`); all numeric comparisons in the
  source are exact comparisons of IEEE doubles, which the rational model mirrors
  faithfully on the values that actually occur.
* Python strings are Lean `String`s (a `String` is a packed `List Char`, and the
  per-character `replace` operations of the source are modelled on `String.data`).
* Code that raises an exception is modelled with `Except`.
* The concrete solver engines (gurobipy, pyscipopt, ortools, mipcl) are external
  collaborators of this layer; where a function consults the engine, the engine's
  answer is an explicit parameter (an "oracle").
-/

namespace LPInterface

/-! ## `escape_name` (lpinterface.py, lines 19-23)

Python: `s.replace('.', '').replace('-', 'm').replace('/', '__')[:200]`.
Each `replace` has a single-character pattern, so it acts independently on each
character of the string; `[:200]` truncates to the first 200 characters. -/

/-- `s.replace('.', '')`: delete every `'.'`. -/
def replaceDot (l : List Char) : List Char :=
  l.filter (fun c => c ≠ '.')

/-- `s.replace('-', 'm')`: map every `'-'` to `'m'`. -/
def replaceDash (l : List Char) : List Char :=
  l.map (fun c => if c = '-' then 'm' else c)

/-- `s.replace('/', '__')`: map every `'/'` to two underscores. -/
def replaceSlash (l : List Char) : List Char :=
  l.flatMap (fun c => if c = '/' then ['_', '_'] else [c])

/-- `escape_name` from lpinterface.py: delete `'.'`, then `'-' → 'm'`, then
`'/' → "__"`, then truncate to 200 characters. -/
def escape_name (s : String) : String :=
  ⟨(replaceSlash (replaceDash (replaceDot s.data))).take 200⟩

/-- Characters produced by the replacement pipeline are never `'.'`, `'-'` or `'/'`. -/
lemma escape_chars_clean (l : List Char) :
    ∀ c ∈ replaceSlash (replaceDash (replaceDot l)), c ≠ '.' ∧ c ≠ '-' ∧ c ≠ '/' := by
  intro c hc
  simp only [replaceSlash, List.mem_flatMap] at hc
  obtain ⟨d, hd, hcd⟩ := hc
  simp only [replaceDash, List.mem_map] at hd
  obtain ⟨e, he, hde⟩ := hd
  simp only [replaceDot, List.mem_filter, decide_eq_true_eq] at he
  by_cases hslash : d = '/'
  · subst hslash
    simp at hcd
    subst hcd
    exact ⟨by decide, by decide, by decide⟩
  · simp [hslash] at hcd
    subst hcd
    refine ⟨?_, ?_, hslash⟩
    · by_cases hdash : e = '-'
      · simp [hdash] at hde; subst hde; decide
      · simp [hdash] at hde; subst hde; exact he.2
    · by_cases hdash : e = '-'
      · simp [hdash] at hde; subst hde; decide
      · simp [hdash] at hde; subst hde; exact hdash

/-- `replaceDot` is the identity on lists without `'.'`. -/
lemma replaceDot_eq_self {l : List Char} (h : ∀ c ∈ l, c ≠ '.') :
    replaceDot l = l := by
  simp only [replaceDot]
  rw [List.filter_eq_self]
  intro a ha
  simpa using h a ha

/-- `replaceDash` is the identity on lists without `'-'`. -/
lemma replaceDash_eq_self {l : List Char} (h : ∀ c ∈ l, c ≠ '-') :
    replaceDash l = l := by
  simp only [replaceDash]
  rw [show l.map (fun c => if c = '-' then 'm' else c) = l.map id by
        apply List.map_congr_left
        intro a ha
        simp [h a ha]]
  exact List.map_id l

/-- `replaceSlash` is the identity on lists without `'/'`. -/
lemma replaceSlash_eq_self {l : List Char} (h : ∀ c ∈ l, c ≠ '/') :
    replaceSlash l = l := by
  induction l with
  | nil => rfl
  | cons a l ih =>
      have ha : a ≠ '/' := h a (List.mem_cons_self a l)
      have ih' := ih (fun c hc => h c (List.mem_cons_of_mem a hc))
      simp [replaceSlash, ha] at ih' ⊢
      exact ih'

/-- **C8.** `escape_name` is idempotent: sanitizing an already-sanitized name is
a no-op. -/
theorem escape_name_idempotent (s : String) :
    escape_name (escape_name s) = escape_name s := by
  unfold escape_name
  have hclean := escape_chars_clean s.data
  set X := replaceSlash (replaceDash (replaceDot s.data)) with hX
  have hsub : ∀ c ∈ X.take 200, c ≠ '.' ∧ c ≠ '-' ∧ c ≠ '/' := by
    intro c hc
    exact hclean c (List.take_subset 200 X hc)
  have h1 : replaceDot (X.take 200) = X.take 200 :=
    replaceDot_eq_self (fun c hc => (hsub c hc).1)
  have h2 : replaceDash (X.take 200) = X.take 200 :=
    replaceDash_eq_self (fun c hc => (hsub c hc).2.1)
  have h3 : replaceSlash (X.take 200) = X.take 200 :=
    replaceSlash_eq_self (fun c hc => (hsub c hc).2.2)
  simp only [String.data]
  rw [h1, h2, h3, List.take_take]
  norm_num

/-! ## Linear model state

The Gurobi adapter (class `Gurobi`, lines 33-263) builds a model through
`addVar` / `addConstr`.  We embed the observable model state: the list of
created variables and the list of registered linear constraints.  A Gurobi
variable object is identified by a creation index (`id`); `varName` reads the
object's name field, so the name travels with the variable object. -/

/-- Default solver precision, lpinterface.py line 15: `SOLVER_PRECISON = 1e-5`. -/
def SOLVER_PRECISON : ℚ := 1 / 100000

/-- A variable object as returned by `Gurobi.addVar`: a fresh object
(identified by its creation index), the (sanitized) name, and the lower bound
(`none` models an infinite lower bound). -/
structure MVar where
  id : ℕ
  name : String
  lb : Option ℚ
  deriving DecidableEq, Repr

/-- Relational operator of a linear constraint. -/
inductive Rel where
  | le
  | ge
  | eq
  deriving DecidableEq, Repr

/-- A linear constraint `Σ cᵢ·xᵢ  rel  rhs` with an optional name (the `name`
keyword argument of `addConstr` is optional). -/
structure LinCon where
  lhs : List (ℚ × ℕ)
  rel : Rel
  rhs : ℚ
  cname : Option String
  deriving DecidableEq, Repr

/-- The observable model state of the Gurobi adapter. -/
structure ModelState where
  nextId : ℕ
  vars : List MVar
  constrs : List LinCon
  deriving DecidableEq, Repr

/-- Value of a linear expression under an assignment of the variable ids. -/
def evalLin (σ : ℕ → ℚ) (l : List (ℚ × ℕ)) : ℚ :=
  (l.map (fun p => p.1 * σ p.2)).sum

/-- An assignment satisfies one linear constraint. -/
def satisfies (σ : ℕ → ℚ) : LinCon → Prop
  | ⟨lhs, .le, rhs, _⟩ => evalLin σ lhs ≤ rhs
  | ⟨lhs, .ge, rhs, _⟩ => rhs ≤ evalLin σ lhs
  | ⟨lhs, .eq, rhs, _⟩ => evalLin σ lhs = rhs

instance (σ : ℕ → ℚ) : (c : LinCon) → Decidable (satisfies σ c)
  | ⟨_, .le, _, _⟩ => inferInstanceAs (Decidable (_ ≤ _))
  | ⟨_, .ge, _, _⟩ => inferInstanceAs (Decidable (_ ≤ _))
  | ⟨_, .eq, _, _⟩ => inferInstanceAs (Decidable (_ = _))

/-- An assignment respects a variable's declared lower bound (`none` models an
infinite lower bound, which never constrains). -/
def lbOk (σ : ℕ → ℚ) : MVar → Prop
  | ⟨vid, _, some b⟩ => b ≤ σ vid
  | ⟨_, _, none⟩ => True

instance (σ : ℕ → ℚ) : (v : MVar) → Decidable (lbOk σ v)
  | ⟨_, _, some _⟩ => inferInstanceAs (Decidable (_ ≤ _))
  | ⟨_, _, none⟩ => inferInstanceAs (Decidable True)

/-- An assignment is feasible for a model state: it respects every declared
lower bound and satisfies every registered constraint. -/
def Feasible (st : ModelState) (σ : ℕ → ℚ) : Prop :=
  (∀ v ∈ st.vars, lbOk σ v) ∧
  (∀ c ∈ st.constrs, satisfies σ c)

/-- `Gurobi.addVar` (lines 64-87): creates a fresh variable object with the
sanitized name (the `name` keyword is passed through `escape_name`) and the
given lower bound, appends it to the model, and returns it.  (`vtype`
translation and the `update` flag have no bearing on the claims and are not
recorded in the state.) -/
def Gurobi_addVar (st : ModelState) (lb : Option ℚ) (name : String) :
    ModelState × MVar :=
  let v : MVar := ⟨st.nextId, escape_name name, lb⟩
  (⟨st.nextId + 1, st.vars ++ [v], st.constrs⟩, v)

/-- `Gurobi.addConstr` (lines 54-61): sanitizes the optional name and registers
the constraint with the engine. -/
def Gurobi_addConstr (st : ModelState) (c : LinCon) : ModelState :=
  let c' : LinCon := ⟨c.lhs, c.rel, c.rhs, c.cname.map escape_name⟩
  ⟨st.nextId, st.vars, st.constrs ++ [c']⟩

/-! ## `Gurobi.abssum` (lines 124-142)

```python
vv = []
for i, v in enumerate(vars):
   name = self.varName(v)
   coeff = 1 if coeffs is None or name not in coeffs else coeffs[name]
   absvar = self.addVar(lb=0, update=False, name=f'ABS_{name}')
   vv.append(coeff * absvar)
   self.addConstr(absvar + v >= 0, name=f'CABSL_{i}')
   self.addConstr(absvar - v >= 0, name=f'CABSR_{i}')
self.update()
return self.quicksum(vv)
```

The coefficient dictionary is modelled as an association list; `quicksum`
returns the linear expression `vv` itself. -/

/-- Coefficient lookup: `1 if coeffs is None or name not in coeffs else coeffs[name]`. -/
def coeffOf (coeffs : Option (List (String × ℚ))) (name : String) : ℚ :=
  match coeffs with
  | none => 1
  | some cs => (cs.lookup name).getD 1

/-- The loop body of `Gurobi.abssum`, one iteration per input variable. -/
def abssumGo (st : ModelState) (vars : List MVar)
    (coeffs : Option (List (String × ℚ))) (i : ℕ) (vv : List (ℚ × ℕ)) :
    ModelState × List (ℚ × ℕ) :=
  match vars with
  | [] => (st, vv)
  | v :: rest =>
      let name := v.name
      let coeff := coeffOf coeffs name
      let p := Gurobi_addVar st (some 0) ("ABS_" ++ name)
      let st1 := p.1
      let absvar := p.2
      let st2 := Gurobi_addConstr st1
        ⟨[(1, absvar.id), (1, v.id)], .ge, 0, some ("CABSL_" ++ Nat.repr i)⟩
      let st3 := Gurobi_addConstr st2
        ⟨[(1, absvar.id), (-1, v.id)], .ge, 0, some ("CABSR_" ++ Nat.repr i)⟩
      abssumGo st3 rest coeffs (i + 1) (vv ++ [(coeff, absvar.id)])

/-- `Gurobi.abssum`: returns the updated model and the expression
`Σ cᵢ · aᵢ` over the fresh auxiliary variables. -/
def abssum (st : ModelState) (vars : List MVar)
    (coeffs : Option (List (String × ℚ))) : ModelState × List (ℚ × ℕ) :=
  abssumGo st vars coeffs 0 []

/-- Specification of the auxiliary variables created by `abssum`, starting at
creation index `n`: one per input variable, with lower bound `0`. -/
def absAuxVars (n : ℕ) : List MVar → List MVar
  | [] => []
  | v :: rest => ⟨n, escape_name ("ABS_" ++ v.name), some 0⟩ :: absAuxVars (n + 1) rest

/-- Specification of the constraints created by `abssum`: `aᵢ + xᵢ ≥ 0` and
`aᵢ - xᵢ ≥ 0` for each input variable. -/
def absAuxCons (n i : ℕ) : List MVar → List LinCon
  | [] => []
  | v :: rest =>
      ⟨[(1, n), (1, v.id)], .ge, 0, some (escape_name ("CABSL_" ++ Nat.repr i))⟩ ::
      ⟨[(1, n), (-1, v.id)], .ge, 0, some (escape_name ("CABSR_" ++ Nat.repr i))⟩ ::
      absAuxCons (n + 1) (i + 1) rest

/-- Specification of the expression returned by `abssum`:
`Σ coeffOf(name xᵢ) · aᵢ`. -/
def absAuxExpr (n : ℕ) (coeffs : Option (List (String × ℚ))) :
    List MVar → List (ℚ × ℕ)
  | [] => []
  | v :: rest => (coeffOf coeffs v.name, n) :: absAuxExpr (n + 1) coeffs rest

/-- Closed form of the `abssum` loop. -/
lemma abssumGo_eq (vars : List MVar) :
    ∀ (st : ModelState) coeffs (i : ℕ) (vv : List (ℚ × ℕ)),
    abssumGo st vars coeffs i vv =
      (⟨st.nextId + vars.length,
        st.vars ++ absAuxVars st.nextId vars,
        st.constrs ++ absAuxCons st.nextId i vars⟩,
       vv ++ absAuxExpr st.nextId coeffs vars) := by
  induction vars with
  | nil =>
      intro st coeffs i vv
      simp [abssumGo, absAuxVars, absAuxCons, absAuxExpr]
  | cons v rest ih =>
      intro st coeffs i vv
      simp only [abssumGo]
      rw [ih]
      simp only [Gurobi_addVar, Gurobi_addConstr, absAuxVars, absAuxCons, absAuxExpr,
        List.length_cons, Option.map_some', Prod.mk.injEq, ModelState.mk.injEq]
      refine ⟨⟨by omega, ?_, ?_⟩, ?_⟩ <;> simp [List.append_assoc]

@[simp] lemma evalLin_nil (σ : ℕ → ℚ) : evalLin σ [] = 0 := rfl

@[simp] lemma evalLin_cons (σ : ℕ → ℚ) (c : ℚ) (x : ℕ) (l : List (ℚ × ℕ)) :
    evalLin σ ((c, x) :: l) = c * σ x + evalLin σ l := by
  simp [evalLin]

/-! ### The fixed-assignment scenario for `abssum`

The spec's correctness property fixes each input variable `xᵢ` to a target
value `tᵢ` with an equality constraint and minimizes the expression returned by
`abssum`.  `initAbsState t` is that starting model: variables `x0, x1, …`
(creation indices `0, 1, …`, no lower bound) and one equality constraint per
variable. -/

/-- The `i`-th input variable of the scenario. -/
def xVar (i : ℕ) : MVar := ⟨i, "x" ++ Nat.repr i, none⟩

/-- The input variables of the scenario. -/
def xVars (k : ℕ) : List MVar := (List.range k).map xVar

/-- The equality constraints `xᵢ = tᵢ` fixing the assignment. -/
def fixCons (t : List ℚ) : List LinCon :=
  (List.range t.length).map
    (fun i => ⟨[(1, i)], .eq, t.getD i 0, some ("FIX_" ++ Nat.repr i)⟩)

/-- The starting model of the scenario. -/
def initAbsState (t : List ℚ) : ModelState :=
  ⟨t.length, xVars t.length, fixCons t⟩

/-- The coefficient applying to the `i`-th scenario variable. -/
def coeffAt (coeffs : Option (List (String × ℚ))) (i : ℕ) : ℚ :=
  coeffOf coeffs ("x" ++ Nat.repr i)

/-- The optimum value the spec promises: `Σ cᵢ·|tᵢ|`. -/
def absTarget (coeffs : Option (List (String × ℚ))) (t : List ℚ) : ℚ :=
  ((List.range t.length).map (fun i => coeffAt coeffs i * |t.getD i 0|)).sum

/-- `Σ coeffOf(name xᵢ)·|σ xᵢ|` over a list of variables. -/
def absValSum (σ : ℕ → ℚ) (coeffs : Option (List (String × ℚ)))
    (vs : List MVar) : ℚ :=
  (vs.map (fun v => coeffOf coeffs v.name * |σ v.id|)).sum

/-- An assignment that dominates the per-variable absolute values pointwise
satisfies all `abssum` constraints. -/
lemma satisfies_absAuxCons (σ : ℕ → ℚ) :
    ∀ (vs : List MVar) (n i : ℕ),
    (∀ j (hj : j < vs.length),
        0 ≤ σ (n + j) + σ ((vs.get ⟨j, hj⟩).id) ∧
        0 ≤ σ (n + j) - σ ((vs.get ⟨j, hj⟩).id)) →
    ∀ c ∈ absAuxCons n i vs, satisfies σ c := by
  intro vs
  induction vs with
  | nil => intro n i _ c hc; simp [absAuxCons] at hc
  | cons v rest ih =>
      intro n i h c hc
      have h0 := h 0 (by simp)
      simp only [List.get] at h0
      rw [absAuxCons] at hc
      simp only [List.mem_cons] at hc
      rcases hc with rfl | rfl | hc
      · show (0 : ℚ) ≤ evalLin σ [(1, n), (1, v.id)]
        simp only [evalLin_cons, evalLin_nil, one_mul]
        have := h0.1
        simp only [Nat.add_zero] at this
        linarith
      · show (0 : ℚ) ≤ evalLin σ [(1, n), (-1, v.id)]
        simp only [evalLin_cons, evalLin_nil, one_mul, neg_one_mul]
        have := h0.2
        simp only [Nat.add_zero] at this
        linarith
      · refine ih (n + 1) (i + 1) ?_ c hc
        intro j hj
        have := h (j + 1) (by simpa using Nat.succ_lt_succ hj)
        simp only [List.get] at this
        have harith : n + 1 + j = n + (j + 1) := by omega
        rw [harith]
        exact this

/-- Conversely, the `abssum` constraints force each auxiliary variable to
dominate the absolute value of its input variable. -/
lemma absAuxCons_forces (σ : ℕ → ℚ) :
    ∀ (vs : List MVar) (n i : ℕ),
    (∀ c ∈ absAuxCons n i vs, satisfies σ c) →
    ∀ j (hj : j < vs.length), |σ ((vs.get ⟨j, hj⟩).id)| ≤ σ (n + j) := by
  intro vs
  induction vs with
  | nil => intro n i _ j hj; simp at hj
  | cons v rest ih =>
      intro n i hsat j hj
      have hL : satisfies σ
          ⟨[(1, n), (1, v.id)], .ge, 0, some (escape_name ("CABSL_" ++ Nat.repr i))⟩ :=
        hsat _ (by rw [absAuxCons]; exact List.mem_cons_self _ _)
      have hR : satisfies σ
          ⟨[(1, n), (-1, v.id)], .ge, 0, some (escape_name ("CABSR_" ++ Nat.repr i))⟩ :=
        hsat _ (by rw [absAuxCons]; exact List.mem_cons_of_mem _ (List.mem_cons_self _ _))
      have hL' : (0 : ℚ) ≤ σ n + σ v.id := by
        have : (0 : ℚ) ≤ evalLin σ [(1, n), (1, v.id)] := hL
        simpa [one_mul] using this
      have hR' : (0 : ℚ) ≤ σ n - σ v.id := by
        have : (0 : ℚ) ≤ evalLin σ [(1, n), (-1, v.id)] := hR
        simp only [evalLin_cons, evalLin_nil, one_mul, neg_one_mul] at this
        linarith
      match j with
      | 0 =>
          simp only [List.get, Nat.add_zero]
          exact abs_le.mpr ⟨by linarith, by linarith⟩
      | j + 1 =>
          have hrec := ih (n + 1) (i + 1)
            (fun c hc => hsat c (by
              rw [absAuxCons]
              exact List.mem_cons_of_mem _ (List.mem_cons_of_mem _ hc)))
            j (by simpa using Nat.lt_of_succ_lt_succ hj)
          simp only [List.get]
          have harith : n + (j + 1) = n + 1 + j := by omega
          rw [harith]
          exact hrec

/-- The auxiliary variables created by `abssum` have ids `n, n+1, …` and lower
bound `0`. -/
lemma mem_absAuxVars :
    ∀ (vs : List MVar) (n : ℕ) (v' : MVar), v' ∈ absAuxVars n vs →
    ∃ j, j < vs.length ∧ v'.id = n + j ∧ v'.lb = some 0 := by
  intro vs
  induction vs with
  | nil => intro n v' h; simp [absAuxVars] at h
  | cons v rest ih =>
      intro n v' h
      rw [absAuxVars] at h
      simp only [List.mem_cons] at h
      rcases h with rfl | h
      · exact ⟨0, by simp, by simp, rfl⟩
      · obtain ⟨j, hj, hid, hlb⟩ := ih (n + 1) v' h
        exact ⟨j + 1, by simpa using Nat.succ_lt_succ hj, by omega, hlb⟩

/-- With nonnegative coefficients, the returned expression is bounded below by
`Σ cᵢ·|σ xᵢ|` whenever each auxiliary variable dominates the corresponding
absolute value. -/
lemma absValSum_le_evalLin (σ : ℕ → ℚ) (coeffs : Option (List (String × ℚ))) :
    ∀ (vs : List MVar) (n : ℕ),
    (∀ v ∈ vs, 0 ≤ coeffOf coeffs v.name) →
    (∀ j (hj : j < vs.length), |σ ((vs.get ⟨j, hj⟩).id)| ≤ σ (n + j)) →
    absValSum σ coeffs vs ≤ evalLin σ (absAuxExpr n coeffs vs) := by
  intro vs
  induction vs with
  | nil => intro n _ _; simp [absValSum, absAuxExpr]
  | cons v rest ih =>
      intro n hc habs
      have h0 : |σ v.id| ≤ σ n := by
        have := habs 0 (by simp)
        simpa [List.get] using this
      have hcv : 0 ≤ coeffOf coeffs v.name := hc v (List.mem_cons_self _ _)
      have hrest : absValSum σ coeffs rest ≤ evalLin σ (absAuxExpr (n + 1) coeffs rest) := by
        refine ih (n + 1) (fun w hw => hc w (List.mem_cons_of_mem _ hw)) ?_
        intro j hj
        have := habs (j + 1) (by simpa using Nat.succ_lt_succ hj)
        simp only [List.get] at this
        have harith : n + (j + 1) = n + 1 + j := by omega
        rw [harith] at this
        exact this
      rw [absAuxExpr]
      simp only [absValSum, List.map_cons, List.sum_cons, evalLin_cons]
      have hhead : coeffOf coeffs v.name * |σ v.id| ≤ coeffOf coeffs v.name * σ n :=
        mul_le_mul_of_nonneg_left h0 hcv
      exact add_le_add hhead hrest

/-- When each auxiliary variable is exactly the absolute value of its input
variable, the returned expression evaluates to `Σ cᵢ·|σ xᵢ|`. -/
lemma evalLin_absAuxExpr_eq (σ : ℕ → ℚ) (coeffs : Option (List (String × ℚ))) :
    ∀ (vs : List MVar) (n : ℕ),
    (∀ j (hj : j < vs.length), σ (n + j) = |σ ((vs.get ⟨j, hj⟩).id)|) →
    evalLin σ (absAuxExpr n coeffs vs) = absValSum σ coeffs vs := by
  intro vs
  induction vs with
  | nil => intro n _; simp [absValSum, absAuxExpr]
  | cons v rest ih =>
      intro n h
      have h0 : σ n = |σ v.id| := by
        have := h 0 (by simp)
        simpa [List.get] using this
      have hrest : evalLin σ (absAuxExpr (n + 1) coeffs rest) = absValSum σ coeffs rest := by
        refine ih (n + 1) ?_
        intro j hj
        have := h (j + 1) (by simpa using Nat.succ_lt_succ hj)
        simp only [List.get] at this
        have harith : n + (j + 1) = n + 1 + j := by omega
        rw [harith] at this
        exact this
      rw [absAuxExpr]
      simp only [absValSum, List.map_cons, List.sum_cons, evalLin_cons]
      rw [h0, hrest]
      rfl

/-- The equality constraints of the scenario pin each `xᵢ` to `tᵢ`. -/
lemma fixCons_forces (σ : ℕ → ℚ) (t : List ℚ)
    (hsat : ∀ c ∈ fixCons t, satisfies σ c) :
    ∀ i < t.length, σ i = t.getD i 0 := by
  intro i hi
  have hmem : (⟨[(1, i)], .eq, t.getD i 0, some ("FIX_" ++ Nat.repr i)⟩ : LinCon) ∈ fixCons t := by
    exact List.mem_map.mpr ⟨i, List.mem_range.mpr hi, rfl⟩
  have := hsat _ hmem
  have h : evalLin σ [(1, i)] = t.getD i 0 := this
  simpa [one_mul] using h

/-- Conversely, an assignment matching `t` on the scenario variables satisfies
the equality constraints. -/
lemma satisfies_fixCons (σ : ℕ → ℚ) (t : List ℚ)
    (h : ∀ i < t.length, σ i = t.getD i 0) :
    ∀ c ∈ fixCons t, satisfies σ c := by
  intro c hc
  simp only [fixCons, List.mem_map, List.mem_range] at hc
  obtain ⟨i, hi, rfl⟩ := hc
  show evalLin σ [(1, i)] = t.getD i 0
  simpa [one_mul] using h i hi

/-- Over the scenario variables, `absValSum` is exactly the target
`Σ cᵢ·|tᵢ|` when `σ` matches `t`. -/
lemma absValSum_xVars (σ : ℕ → ℚ) (coeffs : Option (List (String × ℚ)))
    (t : List ℚ) (h : ∀ i < t.length, σ i = t.getD i 0) :
    absValSum σ coeffs (xVars t.length) = absTarget coeffs t := by
  unfold absValSum xVars absTarget
  rw [List.map_map]
  congr 1
  apply List.map_congr_left
  intro i hi
  have hi' := List.mem_range.mp hi
  simp only [Function.comp, xVar, coeffAt]
  rw [h i hi']

lemma xVars_length (k : ℕ) : (xVars k).length = k := by
  simp [xVars]

lemma xVars_get (k j : ℕ) (hj : j < (xVars k).length) :
    (xVars k).get ⟨j, hj⟩ = xVar j := by
  simp [xVars]

lemma lbOk_of (σ : ℕ → ℚ) (v : MVar) (h : ∀ b, v.lb = some b → b ≤ σ v.id) :
    lbOk σ v := by
  obtain ⟨vid, nm, lb⟩ := v
  cases lb with
  | none => trivial
  | some b => exact h b rfl

/-- Closed form of `abssum` at the scenario state. -/
lemma abssum_scenario_eq (t : List ℚ) (coeffs : Option (List (String × ℚ))) :
    abssum (initAbsState t) (xVars t.length) coeffs =
      (⟨t.length + t.length,
        xVars t.length ++ absAuxVars t.length (xVars t.length),
        fixCons t ++ absAuxCons t.length 0 (xVars t.length)⟩,
       absAuxExpr t.length coeffs (xVars t.length)) := by
  rw [abssum, abssumGo_eq]
  simp [initAbsState, xVars_length]

/-- The optimal assignment: each `xᵢ` at its fixed value `tᵢ`, each auxiliary
variable at the corresponding absolute value. -/
def absOptAssign (t : List ℚ) : ℕ → ℚ :=
  fun id => if id < t.length then t.getD id 0 else |t.getD (id - t.length) 0|

/-- **C6 (amended).** `abssum` introduces one fresh lower-bounded-by-0 auxiliary
variable per input variable together with the constraints `aᵢ + xᵢ ≥ 0` and
`aᵢ - xᵢ ≥ 0`, and returns `Σ cᵢ·aᵢ` with `cᵢ` looked up by variable name
(default 1); and — provided every applicable coefficient is nonnegative — for
any assignment fixing each `xᵢ` by equality constraints, minimizing the
returned expression attains exactly `Σ cᵢ·|xᵢ|` at the optimum. -/
theorem abssum_linearization :
    (∀ (st : ModelState) (vars : List MVar) (coeffs : Option (List (String × ℚ))),
      abssum st vars coeffs =
        (⟨st.nextId + vars.length,
          st.vars ++ absAuxVars st.nextId vars,
          st.constrs ++ absAuxCons st.nextId 0 vars⟩,
         absAuxExpr st.nextId coeffs vars))
    ∧ ∀ (t : List ℚ) (coeffs : Option (List (String × ℚ))),
        (∀ i < t.length, 0 ≤ coeffAt coeffs i) →
        IsLeast {y : ℚ | ∃ σ : ℕ → ℚ,
            Feasible (abssum (initAbsState t) (xVars t.length) coeffs).1 σ ∧
            evalLin σ (abssum (initAbsState t) (xVars t.length) coeffs).2 = y}
          (absTarget coeffs t) := by
  constructor
  · intro st vars coeffs
    rw [abssum, abssumGo_eq]
    simp
  · intro t coeffs hc
    have heq := abssum_scenario_eq t coeffs
    have hcx : ∀ v ∈ xVars t.length, 0 ≤ coeffOf coeffs v.name := by
      intro v hv
      obtain ⟨i, hi, rfl⟩ := List.mem_map.mp hv
      exact hc i (List.mem_range.mp hi)
    constructor
    · -- the optimum value is attained
      refine ⟨absOptAssign t, ?_, ?_⟩
      · rw [heq]
        constructor
        · intro v hv
          refine lbOk_of _ _ ?_
          intro b hb
          rcases List.mem_append.mp hv with hvx | hva
          · obtain ⟨i, _, rfl⟩ := List.mem_map.mp hvx
            simp [xVar] at hb
          · obtain ⟨j, hj, hid, hlb⟩ := mem_absAuxVars _ _ _ hva
            rw [hlb] at hb
            have hb0 : b = 0 := (Option.some.inj hb).symm
            subst hb0
            rw [hid]
            have hnot : ¬ (t.length + j < t.length) := by omega
            simp only [absOptAssign, hnot, if_false]
            exact abs_nonneg _
        · intro c hcmem
          rcases List.mem_append.mp hcmem with hfix | haux
          · refine satisfies_fixCons _ t ?_ c hfix
            intro i hi
            simp [absOptAssign, hi]
          · refine satisfies_absAuxCons _ _ _ _ ?_ c haux
            intro j hj
            have hjk : j < t.length := by simpa [xVars_length] using hj
            have hget : ((xVars t.length).get ⟨j, hj⟩).id = j := by
              rw [xVars_get]; rfl
            rw [hget]
            have hnot : ¬ (t.length + j < t.length) := by omega
            have h1 : absOptAssign t (t.length + j) = |t.getD j 0| := by
              simp [absOptAssign, hnot]
            have h2 : absOptAssign t j = t.getD j 0 := by
              simp [absOptAssign, hjk]
            rw [h1, h2]
            constructor
            · have := neg_abs_le (t.getD j 0); linarith
            · have := le_abs_self (t.getD j 0); linarith
      · rw [heq]
        have hval : ∀ j (hj : j < (xVars t.length).length),
            absOptAssign t (t.length + j) =
              |absOptAssign t (((xVars t.length).get ⟨j, hj⟩).id)| := by
          intro j hj
          have hjk : j < t.length := by simpa [xVars_length] using hj
          have hget : ((xVars t.length).get ⟨j, hj⟩).id = j := by
            rw [xVars_get]; rfl
          rw [hget]
          have hnot : ¬ (t.length + j < t.length) := by omega
          simp [absOptAssign, hnot, hjk]
        rw [evalLin_absAuxExpr_eq _ _ _ _ hval]
        exact absValSum_xVars _ _ _ (fun i hi => by simp [absOptAssign, hi])
    · -- every feasible value is at least the target
      rintro y ⟨σ, hfeas, rfl⟩
      rw [heq] at hfeas ⊢
      obtain ⟨_, hsat⟩ := hfeas
      have hσt := fixCons_forces σ t
        (fun c hcm => hsat c (List.mem_append_left _ hcm))
      have habs := absAuxCons_forces σ (xVars t.length) t.length 0
        (fun c hcm => hsat c (List.mem_append_right _ hcm))
      calc absTarget coeffs t
          = absValSum σ coeffs (xVars t.length) := (absValSum_xVars σ coeffs t hσt).symm
        _ ≤ evalLin σ (absAuxExpr t.length coeffs (xVars t.length)) :=
            absValSum_le_evalLin σ coeffs (xVars t.length) t.length hcx habs

/-- **C6 counterexample.** With a negative coefficient the claimed optimum
`Σ cᵢ·|xᵢ|` is *not* the minimum of the returned expression: for one variable
fixed to `0` with coefficient `-1`, the target is `0`, but the assignment with
auxiliary value `1` is feasible and evaluates to `-1 < 0`. -/
theorem abssum_negative_coeff_counterexample :
    ¬ IsLeast {y : ℚ | ∃ σ : ℕ → ℚ,
        Feasible (abssum (initAbsState [0]) (xVars 1) (some [("x0", -1)])).1 σ ∧
        evalLin σ (abssum (initAbsState [0]) (xVars 1) (some [("x0", -1)])).2 = y}
      (absTarget (some [("x0", -1)]) [0]) := by
  intro h
  have hmem : (-1 : ℚ) ∈ {y : ℚ | ∃ σ : ℕ → ℚ,
      Feasible (abssum (initAbsState [0]) (xVars 1) (some [("x0", -1)])).1 σ ∧
      evalLin σ (abssum (initAbsState [0]) (xVars 1) (some [("x0", -1)])).2 = y} := by
    have heq := abssum_scenario_eq [(0 : ℚ)] (some [("x0", -1)])
    simp only [List.length_singleton] at heq
    have hr1 : List.range 1 = [0] := rfl
    refine ⟨fun id => if id = 1 then 1 else 0, ?_, ?_⟩
    · rw [heq]
      constructor
      · intro v hv
        simp only [List.length_singleton, xVars, xVar, absAuxVars, hr1,
          List.map_cons, List.map_nil, List.mem_append, List.mem_cons,
          List.not_mem_nil, or_false] at hv
        rcases hv with rfl | rfl
        · trivial
        · show (0 : ℚ) ≤ if (1 : ℕ) = 1 then 1 else 0
          norm_num
      · intro c hc
        simp only [List.length_singleton, xVars, xVar, absAuxCons, fixCons, hr1,
          List.map_cons, List.map_nil, List.mem_append,
          List.mem_cons, List.not_mem_nil, or_false] at hc
        rcases hc with rfl | rfl | rfl
        · show evalLin (fun id => if id = 1 then 1 else 0) [(1, 0)] = [(0 : ℚ)].getD 0 0
          simp [evalLin]
        · show (0 : ℚ) ≤ evalLin (fun id => if id = 1 then 1 else 0) [(1, 1), (1, 0)]
          simp [evalLin]
        · show (0 : ℚ) ≤ evalLin (fun id => if id = 1 then 1 else 0) [(1, 1), (-1, 0)]
          simp [evalLin]
    · rw [heq]
      show evalLin _ (absAuxExpr 1 (some [("x0", -1)]) (xVars 1)) = -1
      simp only [xVars, xVar, absAuxExpr, hr1, List.map_cons, List.map_nil]
      have hco : coeffOf (some [("x0", -1)]) ("x" ++ Nat.repr 0) = -1 := by decide
      rw [hco]
      simp [evalLin]
  have := h.2 hmem
  have htarget : absTarget (some [("x0", -1)]) [0] = 0 := by
    have hco : coeffAt (some [("x0", -1)]) 0 = -1 := by decide
    simp [absTarget, hco]
  rw [htarget] at this
  norm_num at this

/-- **C6 witness.** The spec's own example: one variable fixed to `-3`,
coefficient `2`, minimized — the optimum is exactly `2·|-3| = 6`. -/
theorem abssum_linearization_witness :
    (∀ i < ([(-3 : ℚ)]).length, 0 ≤ coeffAt (some [("x0", 2)]) i) ∧
    IsLeast {y : ℚ | ∃ σ : ℕ → ℚ,
        Feasible (abssum (initAbsState [(-3 : ℚ)]) (xVars 1) (some [("x0", 2)])).1 σ ∧
        evalLin σ (abssum (initAbsState [(-3 : ℚ)]) (xVars 1) (some [("x0", 2)])).2 = y}
      (absTarget (some [("x0", 2)]) [(-3 : ℚ)]) :=
  ⟨by decide, abssum_linearization.2 [(-3 : ℚ)] (some [("x0", 2)]) (by decide)⟩

/-! ## `Gurobi.prod` (lines 145-154)

```python
for v in terms:
   self.addConstr(res <= v)
self.addConstr(res >= self.quicksum(terms) - (len(terms) - 1))
return res
```

A Gurobi comparison `res <= v` is the linear constraint `res - v ≤ 0`, and
`res >= Σ terms - (n - 1)` is `res - Σ terms ≥ 1 - n`; both are registered
without a name. -/

/-- The constraints added by `Gurobi.prod`. -/
def prodCons (res : MVar) (terms : List MVar) : List LinCon :=
  terms.map (fun v => ⟨[(1, res.id), (-1, v.id)], .le, 0, none⟩) ++
  [⟨(1, res.id) :: terms.map (fun v => ((-1 : ℚ), v.id)), .ge,
    1 - (terms.length : ℚ), none⟩]

/-- `Gurobi.prod`: adds `res ≤ v` for every term and
`res ≥ Σ terms - (len(terms) - 1)`, and returns `res` unchanged. -/
def Gurobi_prod (st : ModelState) (res : MVar) (terms : List MVar) :
    ModelState × MVar :=
  let st1 := terms.foldl
    (fun s v => Gurobi_addConstr s ⟨[(1, res.id), (-1, v.id)], .le, 0, none⟩) st
  let st2 := Gurobi_addConstr st1
    ⟨(1, res.id) :: terms.map (fun v => ((-1 : ℚ), v.id)), .ge,
      1 - (terms.length : ℚ), none⟩
  (st2, res)

lemma Gurobi_addConstr_constrs (st : ModelState) (c : LinCon) :
    (Gurobi_addConstr st c).constrs =
      st.constrs ++ [⟨c.lhs, c.rel, c.rhs, c.cname.map escape_name⟩] := rfl

lemma prod_foldl_constrs (res : MVar) :
    ∀ (terms : List MVar) (st : ModelState),
    (terms.foldl
        (fun s v => Gurobi_addConstr s ⟨[(1, res.id), (-1, v.id)], .le, 0, none⟩)
        st).constrs =
      st.constrs ++
        terms.map (fun v => ⟨[(1, res.id), (-1, v.id)], .le, 0, none⟩) := by
  intro terms
  induction terms with
  | nil => intro st; simp
  | cons v rest ih =>
      intro st
      simp only [List.foldl_cons, List.map_cons]
      rw [ih]
      simp [Gurobi_addConstr, List.append_assoc]

/-- Sum of an all-ones valuation over a list. -/
lemma sum_map_eq_length (σ : ℕ → ℚ) (terms : List MVar)
    (h : ∀ v ∈ terms, σ v.id = 1) :
    (terms.map (fun v => σ v.id)).sum = (terms.length : ℚ) := by
  induction terms with
  | nil => simp
  | cons v rest ih =>
      simp only [List.map_cons, List.sum_cons, List.length_cons]
      rw [h v (List.mem_cons_self _ _), ih (fun w hw => h w (List.mem_cons_of_mem _ hw))]
      push_cast
      ring

lemma evalLin_neg_terms (σ : ℕ → ℚ) (terms : List MVar) :
    evalLin σ (terms.map (fun v => ((-1 : ℚ), v.id))) =
      -(terms.map (fun v => σ v.id)).sum := by
  induction terms with
  | nil => simp [evalLin]
  | cons v rest ih =>
      simp only [List.map_cons, evalLin_cons, List.sum_cons, ih]
      ring

/-- **C7.** `prod` adds exactly the constraints `res ≤ termᵢ` (for every term)
and `res ≥ Σ terms - (count - 1)` and returns `res` unchanged; under those
constraints, for every 0/1 assignment of `res` and the terms, `res` is forced
to equal the logical AND (product) of the terms. -/
theorem prod_forces_and (st : ModelState) (res : MVar) (terms : List MVar) :
    ((Gurobi_prod st res terms).2 = res ∧
     (Gurobi_prod st res terms).1.constrs = st.constrs ++ prodCons res terms) ∧
    ∀ σ : ℕ → ℚ,
      (σ res.id = 0 ∨ σ res.id = 1) →
      (∀ v ∈ terms, σ v.id = 0 ∨ σ v.id = 1) →
      (∀ c ∈ prodCons res terms, satisfies σ c) →
      σ res.id = if (∀ v ∈ terms, σ v.id = 1) then 1 else 0 := by
  constructor
  · refine ⟨rfl, ?_⟩
    show (Gurobi_addConstr _ _).constrs = _
    rw [Gurobi_addConstr_constrs, prod_foldl_constrs, prodCons]
    simp [List.append_assoc]
  · intro σ hres hterms hsat
    have hbig : satisfies σ
        ⟨(1, res.id) :: terms.map (fun v => ((-1 : ℚ), v.id)), .ge,
          1 - (terms.length : ℚ), none⟩ :=
      hsat _ (List.mem_append_right _ (List.mem_cons_self _ _))
    have hbig' : 1 - (terms.length : ℚ) ≤
        σ res.id - (terms.map (fun v => σ v.id)).sum := by
      have h : (1 - (terms.length : ℚ)) ≤
          evalLin σ ((1, res.id) :: terms.map (fun v => ((-1 : ℚ), v.id))) := hbig
      rw [evalLin_cons, evalLin_neg_terms] at h
      linarith
    by_cases hall : ∀ v ∈ terms, σ v.id = 1
    · rw [if_pos hall]
      have hsum := sum_map_eq_length σ terms hall
      rw [hsum] at hbig'
      have h1 : (1 : ℚ) ≤ σ res.id := by linarith
      rcases hres with h0 | h1'
      · rw [h0] at h1; norm_num at h1
      · exact h1'
    · rw [if_neg hall]
      push_neg at hall
      obtain ⟨v, hv, hv1⟩ := hall
      have hv0 : σ v.id = 0 := by
        rcases hterms v hv with h | h
        · exact h
        · exact absurd h hv1
      have hle : satisfies σ ⟨[(1, res.id), (-1, v.id)], .le, 0, none⟩ :=
        hsat _ (List.mem_append_left _ (List.mem_map.mpr ⟨v, hv, rfl⟩))
      have hle' : σ res.id - σ v.id ≤ 0 := by
        have h : evalLin σ [(1, res.id), (-1, v.id)] ≤ 0 := hle
        simp only [evalLin_cons, evalLin_nil] at h
        linarith
      rcases hres with h0 | h1
      · exact h0
      · rw [h1, hv0] at hle'; norm_num at hle'

/-- **C7 witness.** The spec's example with two terms: for the all-ones
assignment the constraints force `res = 1`. -/
theorem prod_forces_and_witness :
    ((Gurobi_prod ⟨3, [], []⟩ ⟨0, "r", none⟩ [⟨1, "t1", none⟩, ⟨2, "t2", none⟩]).2 =
        ⟨0, "r", none⟩ ∧
     (Gurobi_prod ⟨3, [], []⟩ ⟨0, "r", none⟩ [⟨1, "t1", none⟩, ⟨2, "t2", none⟩]).1.constrs =
        [] ++ prodCons ⟨0, "r", none⟩ [⟨1, "t1", none⟩, ⟨2, "t2", none⟩]) ∧
    (fun _ : ℕ => (1 : ℚ)) (MVar.id ⟨0, "r", none⟩) =
      if (∀ v ∈ [(⟨1, "t1", none⟩ : MVar), ⟨2, "t2", none⟩],
            (fun _ : ℕ => (1 : ℚ)) v.id = 1) then 1 else 0 := by
  have h := prod_forces_and ⟨3, [], []⟩ ⟨0, "r", none⟩ [⟨1, "t1", none⟩, ⟨2, "t2", none⟩]
  refine ⟨h.1, ?_⟩
  refine h.2 (fun _ => 1) (Or.inr rfl) (fun v _ => Or.inr rfl) ?_
  intro c hc
  simp only [prodCons, List.map_cons, List.map_nil, List.mem_append, List.mem_cons,
    List.not_mem_nil, or_false] at hc
  rcases hc with (rfl | rfl) | rfl
  · show evalLin (fun _ => (1 : ℚ)) [(1, 0), (-1, 1)] ≤ 0
    simp [evalLin]
  · show evalLin (fun _ => (1 : ℚ)) [(1, 0), (-1, 2)] ≤ 0
    simp [evalLin]
  · show (1 : ℚ) - 2 ≤ evalLin (fun _ => (1 : ℚ)) [(1, 0), (-1, 1), (-1, 2)]
    simp [evalLin]
    norm_num

/-! ## `solve` in the three live adapters (C4)

`Gurobi.solve` (lines 157-180), `SCIP.solve` (lines 308-318) and `CBC.solve`
(lines 414-423).  Each delegates the optimization to its engine and then
normalizes the outcome; the engine's report is a parameter of the embedding.
Raising `NoSolutionsError` is modelled as `Except.error`. -/

/-- The Python exception `NoSolutionsError` with its constructor argument
(stringified; Gurobi and SCIP pass a status string, CBC passes the engine's
raw status constant, rendered here by its symbolic name). -/
structure NoSolutionsError where
  payload : String
  deriving DecidableEq, Repr

/-- Python's `str.lower` restricted to the characters that occur in status
names. -/
def pyLower (s : String) : String :=
  ⟨s.data.map Char.toLower⟩

/-- Gurobi engine status codes (`GRB.status` constants, as reverse-mapped to
their names by `GUROBI_STATUS`). -/
inductive GurobiStatus where
  | LOADED
  | OPTIMAL
  | INFEASIBLE
  | INF_OR_UNBD
  | UNBOUNDED
  | CUTOFF
  | ITERATION_LIMIT
  | NODE_LIMIT
  | TIME_LIMIT
  | SOLUTION_LIMIT
  | INTERRUPTED
  | NUMERIC
  | SUBOPTIMAL
  | INPROGRESS
  | USER_OBJ_LIMIT
  deriving DecidableEq, Repr

/-- `GUROBI_STATUS[...]`: the symbolic name of a Gurobi status code. -/
def gurobiStatusName : GurobiStatus → String
  | .LOADED => "LOADED"
  | .OPTIMAL => "OPTIMAL"
  | .INFEASIBLE => "INFEASIBLE"
  | .INF_OR_UNBD => "INF_OR_UNBD"
  | .UNBOUNDED => "UNBOUNDED"
  | .CUTOFF => "CUTOFF"
  | .ITERATION_LIMIT => "ITERATION_LIMIT"
  | .NODE_LIMIT => "NODE_LIMIT"
  | .TIME_LIMIT => "TIME_LIMIT"
  | .SOLUTION_LIMIT => "SOLUTION_LIMIT"
  | .INTERRUPTED => "INTERRUPTED"
  | .NUMERIC => "NUMERIC"
  | .SUBOPTIMAL => "SUBOPTIMAL"
  | .INPROGRESS => "INPROGRESS"
  | .USER_OBJ_LIMIT => "USER_OBJ_LIMIT"

/-- `Gurobi.solve`: look up the engine status name, raise `NoSolutionsError`
exactly on `GRB.INFEASIBLE`, otherwise return the lowered status name and the
objective value. -/
def Gurobi_solve (engineStatus : GurobiStatus) (objVal : ℚ) :
    Except NoSolutionsError (String × ℚ) :=
  let status := gurobiStatusName engineStatus
  if engineStatus = .INFEASIBLE then .error ⟨status⟩
  else .ok (pyLower status, objVal)

/-- `SCIP.solve`: the engine reports a status string; raise exactly on
`"infeasible"`, otherwise return the lowered status and the objective. -/
def SCIP_solve (status : String) (objVal : ℚ) :
    Except NoSolutionsError (String × ℚ) :=
  if status = "infeasible" then .error ⟨status⟩
  else .ok (pyLower status, objVal)

/-- CBC (ortools) solver result statuses, plus the `STATUS` defaultdict
fallback for any unlisted code. -/
inductive CbcStatus where
  | OPTIMAL
  | FEASIBLE
  | INFEASIBLE
  | UNBOUNDED
  | ABNORMAL
  | NOT_SOLVED
  | OTHER
  deriving DecidableEq, Repr

/-- The `STATUS` defaultdict of the CBC adapter (default `'UNKNOWN'`). -/
def cbcStatusName : CbcStatus → String
  | .OPTIMAL => "OPTIMAL"
  | .FEASIBLE => "FEASIBLE"
  | .INFEASIBLE => "INFEASIBLE"
  | .UNBOUNDED => "UNBOUNDED"
  | .ABNORMAL => "ABNORMAL"
  | .NOT_SOLVED => "NOT_SOLVED"
  | .OTHER => "UNKNOWN"

/-- `CBC.solve`: raise on the `INFEASIBLE` status code, *and additionally*
raise when `VerifySolution(SOLVER_PRECISON, True)` fails (`verifyOk` is the
engine's verification verdict); otherwise return the lowered status name and
the objective. -/
def CBC_solve (status : CbcStatus) (verifyOk : Bool) (objVal : ℚ) :
    Except NoSolutionsError (String × ℚ) :=
  if status = .INFEASIBLE then .error ⟨cbcStatusName status⟩
  else if verifyOk = false then .error ⟨cbcStatusName status⟩
  else .ok (pyLower (cbcStatusName status), objVal)

/-- **C4 (amended).** For the Gurobi and SCIP adapters, `solve` raises
`NoSolutionsError` exactly when the engine reports Infeasible and returns the
`(status, objective)` pair for every other outcome; the CBC adapter raises
exactly when the engine reports Infeasible *or* when the solution fails the
engine's verification check, and returns the pair otherwise. -/
theorem solve_raises_iff_infeasible :
    (∀ (g : GurobiStatus) (obj : ℚ),
      (Gurobi_solve g obj = .error ⟨gurobiStatusName g⟩ ∧ g = .INFEASIBLE) ∨
      (Gurobi_solve g obj = .ok (pyLower (gurobiStatusName g), obj) ∧ g ≠ .INFEASIBLE))
    ∧ (∀ (s : String) (obj : ℚ),
      (SCIP_solve s obj = .error ⟨s⟩ ∧ s = "infeasible") ∨
      (SCIP_solve s obj = .ok (pyLower s, obj) ∧ s ≠ "infeasible"))
    ∧ (∀ (c : CbcStatus) (verifyOk : Bool) (obj : ℚ),
      (CBC_solve c verifyOk obj = .error ⟨cbcStatusName c⟩ ∧
        (c = .INFEASIBLE ∨ verifyOk = false)) ∨
      (CBC_solve c verifyOk obj = .ok (pyLower (cbcStatusName c), obj) ∧
        c ≠ .INFEASIBLE ∧ verifyOk = true)) := by
  refine ⟨?_, ?_, ?_⟩
  · intro g obj
    by_cases h : g = .INFEASIBLE
    · left; exact ⟨by simp [Gurobi_solve, h], h⟩
    · right; exact ⟨by simp [Gurobi_solve, h], h⟩
  · intro s obj
    by_cases h : s = "infeasible"
    · left
      refine ⟨?_, h⟩
      subst h
      simp [SCIP_solve]
    · right; exact ⟨by simp [SCIP_solve, h], h⟩
  · intro c verifyOk obj
    by_cases h : c = .INFEASIBLE
    · left; exact ⟨by simp [CBC_solve, h], Or.inl h⟩
    · cases verifyOk with
      | false => left; exact ⟨by simp [CBC_solve, h], Or.inr rfl⟩
      | true => right; exact ⟨by simp [CBC_solve, h], h, rfl⟩

/-- **C4 counterexample.** The claim "solve raises exactly on Infeasible" fails
for CBC: an `OPTIMAL` engine status whose solution fails verification still
raises `NoSolutionsError`. -/
theorem cbc_raises_on_verify_failure :
    CBC_solve .OPTIMAL false 0 = .error ⟨"OPTIMAL"⟩ ∧
    CbcStatus.OPTIMAL ≠ CbcStatus.INFEASIBLE := by
  exact ⟨rfl, by decide⟩

/-! ## The solution enumerator `Gurobi.solutions` (lines 224-263)

```python
try:
   status, obj = self.solve(init)
   best_obj = obj if best_obj is None else best_obj
   if status != 'optimal':
      return
   ub = (1 + gap) * best_obj
   if abs(obj - ub) >= SOLVER_PRECISON and obj > ub:
      return
   vv = {name: v for true binary variables}
   yield status, obj, sorted_tuple(set(vv.keys()))
   if not limit or iteration + 1 < limit:
      self.change_model()
      self.addConstr(self.quicksum(vv.values()) <= len(vv) - 1)
      yield from self.solutions(gap, best_obj, limit, iteration + 1, init)
except NoSolutionsError:
   return
```

The engine behind `solve` / `variables` / `getValue` is abstracted as an
*oracle*: a function from the list of exclusion cuts added so far to the
outcome of one solve.  A cut is recorded as the set of binary-variable names
that were true in the emitted solution (the constraint
`Σ (selected binaries) ≤ |selected| - 1` is determined by that set; see
`cut_semantics` below for the grounding of this representation).  The Python
generator recurses without a structural bound, so the embedding takes an
explicit `fuel` for the recursion depth; every claim proved below holds for
every fuel value (or explicitly assumes enough fuel for one step). -/

/-- The outcome of one engine solve: an infeasibility report (which
`Gurobi.solve` turns into `NoSolutionsError`), or a status string, an
objective value, and the set of names of the binary variables valued 1. -/
inductive SolveOutcome where
  | infeasible
  | ok (status : String) (obj : ℚ) (sel : Finset String)
  deriving DecidableEq

/-- An engine oracle: the outcome of solving the model after the given
exclusion cuts have been added. -/
abbrev Oracle := List (Finset String) → SolveOutcome

/-- Modelled from the spec: `sorted_tuple` (imported from `aldy.common`, whose
source is not part of this tree) returns the canonically sorted tuple of a set
of names — "sorted for a canonical, comparison-stable representation". -/
def sorted_tuple (s : Finset String) : List String :=
  s.sort (· ≤ ·)

/-- The generic enumerator `Gurobi.solutions`, as a function of the engine
oracle.  One list element per `yield`. -/
def solutionsAux (oracle : Oracle) (gap : ℚ) (best_obj : Option ℚ)
    (limit : Option ℕ) (iteration : ℕ) (cuts : List (Finset String)) :
    ℕ → List (String × ℚ × List String)
  | 0 => []
  | fuel + 1 =>
    match oracle cuts with
    | .infeasible => []
    | .ok status obj sel =>
      -- `best_obj = obj if best_obj is None else best_obj` is written
      -- `best_obj.getD obj` at each use site; `ub = (1 + gap) * best_obj` is
      -- likewise inlined.
      if status ≠ "optimal" then []
      else if SOLVER_PRECISON ≤ |obj - (1 + gap) * best_obj.getD obj| ∧
          (1 + gap) * best_obj.getD obj < obj then []
      else
        (status, obj, sorted_tuple sel) ::
        -- `not limit or iteration + 1 < limit`: `limit` is falsy when it is
        -- None or 0, which `limit.getD 0 = 0` captures exactly.
        (if limit.getD 0 = 0 ∨ iteration + 1 < limit.getD 0 then
          solutionsAux oracle gap (some (best_obj.getD obj)) limit
            (iteration + 1) (cuts ++ [sel]) fuel
        else [])

/-- Entry point with the Python default arguments
(`gap=0` is the caller's choice; `best_obj=None`, `limit=None`,
`iteration=0`, and no cuts added yet). -/
def solutions (oracle : Oracle) (gap : ℚ) (fuel : ℕ) :
    List (String × ℚ × List String) :=
  solutionsAux oracle gap none none 0 [] fuel

/-- Grounding of the cut representation: for the 0/1 assignment whose set of
true variables is `sel`, the exclusion constraint
`Σ_{v ∈ cut} v ≤ |cut| - 1` holds iff `sel` does not contain every variable of
the cut. -/
lemma cut_semantics (cut sel : Finset String) :
    ((∑ v ∈ cut, if v ∈ sel then (1 : ℚ) else 0) ≤ (cut.card : ℚ) - 1) ↔
      ¬ cut ⊆ sel := by
  classical
  have hsum : (∑ v ∈ cut, if v ∈ sel then (1 : ℚ) else 0) =
      ((cut ∩ sel).card : ℚ) := by
    rw [Finset.sum_boole, Finset.filter_mem_eq_inter]
  rw [hsum]
  constructor
  · intro h hsub
    have : cut ∩ sel = cut := by
      apply Finset.inter_eq_left.mpr hsub
    rw [this] at h
    have : (cut.card : ℚ) ≤ (cut.card : ℚ) - 1 := h
    linarith
  · intro hsub
    have hlt : (cut ∩ sel).card < cut.card := by
      apply Finset.card_lt_card
      constructor
      · exact Finset.inter_subset_left
      · intro hle
        exact hsub (fun x hx => (Finset.mem_inter.mp (hle hx)).2)
    have : ((cut ∩ sel).card : ℚ) + 1 ≤ (cut.card : ℚ) := by
      exact_mod_cast Nat.succ_le_of_lt hlt
    linarith

lemma solutionsAux_zero (oracle : Oracle) (gap : ℚ) (best_obj : Option ℚ)
    (limit : Option ℕ) (iteration : ℕ) (cuts : List (Finset String)) :
    solutionsAux oracle gap best_obj limit iteration cuts 0 = [] := rfl

lemma solutionsAux_infeasible (oracle : Oracle) (gap : ℚ) (best_obj : Option ℚ)
    (limit : Option ℕ) (iteration : ℕ) (cuts : List (Finset String)) (fuel : ℕ)
    (h : oracle cuts = .infeasible) :
    solutionsAux oracle gap best_obj limit iteration cuts (fuel + 1) = [] := by
  rw [solutionsAux, h]

lemma solutionsAux_ok (oracle : Oracle) (gap : ℚ) (best_obj : Option ℚ)
    (limit : Option ℕ) (iteration : ℕ) (cuts : List (Finset String)) (fuel : ℕ)
    (status : String) (obj : ℚ) (sel : Finset String)
    (h : oracle cuts = .ok status obj sel) :
    solutionsAux oracle gap best_obj limit iteration cuts (fuel + 1) =
      if status ≠ "optimal" then []
      else if SOLVER_PRECISON ≤ |obj - (1 + gap) * best_obj.getD obj| ∧
          (1 + gap) * best_obj.getD obj < obj then []
      else
        (status, obj, sorted_tuple sel) ::
        (if limit.getD 0 = 0 ∨ iteration + 1 < limit.getD 0 then
          solutionsAux oracle gap (some (best_obj.getD obj)) limit
            (iteration + 1) (cuts ++ [sel]) fuel
        else []) := by
  rw [solutionsAux, h]

/-- The reference objective of an enumeration run: the supplied `best_obj` if
any, otherwise the objective of the first solve (when it succeeds). -/
def bestRef (oracle : Oracle) (cuts : List (Finset String))
    (best_obj : Option ℚ) : Option ℚ :=
  match best_obj with
  | some b => some b
  | none =>
      match oracle cuts with
      | .ok _ obj _ => some obj
      | .infeasible => none

lemma SOLVER_PRECISON_pos : 0 < SOLVER_PRECISON := by
  norm_num [SOLVER_PRECISON]

/-- An objective that passes the emission gate is at most `ub + ε`. -/
lemma gate_bound {obj ub : ℚ}
    (h : ¬ (SOLVER_PRECISON ≤ |obj - ub| ∧ ub < obj)) :
    obj ≤ ub + SOLVER_PRECISON := by
  push_neg at h
  by_cases habs : SOLVER_PRECISON ≤ |obj - ub|
  · have := h habs
    linarith [SOLVER_PRECISON_pos]
  · push_neg at habs
    have h2 : obj - ub ≤ |obj - ub| := le_abs_self _
    linarith

/-- Gap bound when the reference best is supplied: every emitted objective is
at most `(1 + gap) · b + ε`. -/
lemma solutionsAux_gap_bound_some (oracle : Oracle) (gap b : ℚ) :
    ∀ (fuel : ℕ) (limit : Option ℕ) (iteration : ℕ)
      (cuts : List (Finset String)),
    ∀ e ∈ solutionsAux oracle gap (some b) limit iteration cuts fuel,
      e.2.1 ≤ (1 + gap) * b + SOLVER_PRECISON := by
  intro fuel
  induction fuel with
  | zero =>
      intro limit iteration cuts e he
      rw [solutionsAux_zero] at he
      simp at he
  | succ fuel ih =>
      intro limit iteration cuts e he
      cases hor : oracle cuts with
      | infeasible =>
          rw [solutionsAux_infeasible _ _ _ _ _ _ _ hor] at he
          simp at he
      | ok status obj sel =>
          rw [solutionsAux_ok _ _ _ _ _ _ _ _ _ _ hor] at he
          by_cases hst : status ≠ "optimal"
          · rw [if_pos hst] at he; simp at he
          · rw [if_neg hst] at he
            simp only [Option.getD_some] at he
            by_cases hgate : SOLVER_PRECISON ≤ |obj - (1 + gap) * b| ∧
                (1 + gap) * b < obj
            · rw [if_pos hgate] at he; simp at he
            · rw [if_neg hgate] at he
              rcases List.mem_cons.mp he with rfl | htail
              · exact gate_bound hgate
              · by_cases hcont : limit.getD 0 = 0 ∨ iteration + 1 < limit.getD 0
                · rw [if_pos hcont] at htail
                  exact ih limit (iteration + 1) (cuts ++ [sel]) e htail
                · rw [if_neg hcont] at htail
                  simp at htail

/-- **C1.** Every element emitted by the enumerator has objective
`o ≤ (1 + gap)·best + ε` where `ε = SOLVER_PRECISON` and `best` is the
caller-supplied best objective or, failing that, the objective of the first
solve; and as soon as a solve's objective exceeds that bound the sequence is
empty from that point on. -/
theorem solutions_gap_bound (oracle : Oracle) (gap : ℚ) (best_obj : Option ℚ)
    (limit : Option ℕ) (iteration : ℕ) (cuts : List (Finset String))
    (fuel : ℕ) (b : ℚ) (hb : bestRef oracle cuts best_obj = some b) :
    (∀ e ∈ solutionsAux oracle gap best_obj limit iteration cuts fuel,
        e.2.1 ≤ (1 + gap) * b + SOLVER_PRECISON) ∧
    (∀ status obj sel, oracle cuts = .ok status obj sel →
        (1 + gap) * b + SOLVER_PRECISON < obj →
        solutionsAux oracle gap best_obj limit iteration cuts fuel = []) := by
  constructor
  · intro e he
    cases fuel with
    | zero => rw [solutionsAux_zero] at he; simp at he
    | succ fuel =>
        cases hor : oracle cuts with
        | infeasible =>
            rw [solutionsAux_infeasible _ _ _ _ _ _ _ hor] at he
            simp at he
        | ok status obj sel =>
            have hbeq : best_obj.getD obj = b := by
              cases best_obj with
              | some b' => simpa [bestRef] using hb
              | none => simp [bestRef, hor] at hb; simpa using hb
            rw [solutionsAux_ok _ _ _ _ _ _ _ _ _ _ hor, hbeq] at he
            by_cases hst : status ≠ "optimal"
            · rw [if_pos hst] at he; simp at he
            · rw [if_neg hst] at he
              by_cases hgate : SOLVER_PRECISON ≤ |obj - (1 + gap) * b| ∧
                  (1 + gap) * b < obj
              · rw [if_pos hgate] at he; simp at he
              · rw [if_neg hgate] at he
                rcases List.mem_cons.mp he with rfl | htail
                · exact gate_bound hgate
                · by_cases hcont : limit.getD 0 = 0 ∨
                      iteration + 1 < limit.getD 0
                  · rw [if_pos hcont] at htail
                    exact solutionsAux_gap_bound_some oracle gap b fuel limit
                      (iteration + 1) (cuts ++ [sel]) e htail
                  · rw [if_neg hcont] at htail
                    simp at htail
  · intro status obj sel hor hexceed
    cases fuel with
    | zero => exact solutionsAux_zero _ _ _ _ _ _
    | succ fuel =>
        have hbeq : best_obj.getD obj = b := by
          cases best_obj with
          | some b' => simpa [bestRef] using hb
          | none => simp [bestRef, hor] at hb; simpa using hb
        rw [solutionsAux_ok _ _ _ _ _ _ _ _ _ _ hor, hbeq]
        by_cases hst : status ≠ "optimal"
        · rw [if_pos hst]
        · rw [if_neg hst]
          have hgate : SOLVER_PRECISON ≤ |obj - (1 + gap) * b| ∧
              (1 + gap) * b < obj := by
            constructor
            · have : SOLVER_PRECISON ≤ obj - (1 + gap) * b := by linarith
              calc SOLVER_PRECISON ≤ obj - (1 + gap) * b := this
                _ ≤ |obj - (1 + gap) * b| := le_abs_self _
            · linarith [SOLVER_PRECISON_pos]
          rw [if_pos hgate]

/-- A demonstration oracle for the gap-bound witness: always optimal with
objective 1, selection `{x1}`. -/
def gapOracle : Oracle := fun _ => .ok "optimal" 1 {"x1"}

/-- **C1 witness.** The gap bound instantiated at a concrete oracle with no
supplied best objective: the reference best is the first solve's objective 1. -/
theorem solutions_gap_bound_witness :
    (∀ e ∈ solutionsAux gapOracle 0 none none 0 [] 3,
        e.2.1 ≤ (1 + 0) * 1 + SOLVER_PRECISON) ∧
    (∀ status obj sel, gapOracle [] = .ok status obj sel →
        (1 + 0) * 1 + SOLVER_PRECISON < obj →
        solutionsAux gapOracle 0 none none 0 [] 3 = []) :=
  solutions_gap_bound gapOracle 0 none none 0 [] 3 1 rfl

/-- `sorted_tuple` loses no information: its underlying set is the input. -/
lemma sorted_tuple_toFinset (s : Finset String) :
    (sorted_tuple s).toFinset = s :=
  Finset.sort_toFinset _ s

/-- An engine respects the exclusion cuts: a successful solve never returns a
selection containing all names of any added cut (this is exactly what the
constraint `Σ (cut) ≤ |cut| - 1` expresses for a 0/1 assignment, see
`cut_semantics`). -/
def OracleSound (oracle : Oracle) : Prop :=
  ∀ (cuts : List (Finset String)) (status : String) (obj : ℚ)
    (sel : Finset String),
    oracle cuts = .ok status obj sel → ∀ c ∈ cuts, ¬ c ⊆ sel

/-- With a sound engine, every selection emitted by the enumerator respects
every cut that was already in place when the run started. -/
lemma solutionsAux_respects_cuts (oracle : Oracle) (hsound : OracleSound oracle)
    (gap : ℚ) :
    ∀ (fuel : ℕ) (best_obj : Option ℚ) (limit : Option ℕ) (iteration : ℕ)
      (cuts : List (Finset String)),
    ∀ e ∈ solutionsAux oracle gap best_obj limit iteration cuts fuel,
    ∀ c ∈ cuts, ¬ c ⊆ e.2.2.toFinset := by
  intro fuel
  induction fuel with
  | zero =>
      intro best_obj limit iteration cuts e he
      rw [solutionsAux_zero] at he
      simp at he
  | succ fuel ih =>
      intro best_obj limit iteration cuts e he c hc
      cases hor : oracle cuts with
      | infeasible =>
          rw [solutionsAux_infeasible _ _ _ _ _ _ _ hor] at he
          simp at he
      | ok status obj sel =>
          rw [solutionsAux_ok _ _ _ _ _ _ _ _ _ _ hor] at he
          by_cases hst : status ≠ "optimal"
          · rw [if_pos hst] at he; simp at he
          · rw [if_neg hst] at he
            by_cases hgate : SOLVER_PRECISON ≤
                |obj - (1 + gap) * best_obj.getD obj| ∧
                (1 + gap) * best_obj.getD obj < obj
            · rw [if_pos hgate] at he; simp at he
            · rw [if_neg hgate] at he
              rcases List.mem_cons.mp he with rfl | htail
              · show ¬ c ⊆ (sorted_tuple sel).toFinset
                rw [sorted_tuple_toFinset]
                exact hsound cuts status obj sel hor c hc
              · by_cases hcont : limit.getD 0 = 0 ∨
                    iteration + 1 < limit.getD 0
                · rw [if_pos hcont] at htail
                  exact ih _ limit (iteration + 1) (cuts ++ [sel]) e htail c
                    (List.mem_append_left _ hc)
                · rw [if_neg hcont] at htail
                  simp at htail

/-- **C2.** With an engine that respects the exclusion constraints, the
selection sets emitted by the enumerator are pairwise distinct across the
whole sequence: each emitted selection is excluded by the cut added right
after it, so no later solve can reproduce it. -/
theorem solutions_distinct (oracle : Oracle) (hsound : OracleSound oracle)
    (gap : ℚ) (best_obj : Option ℚ) (limit : Option ℕ) (iteration : ℕ)
    (cuts : List (Finset String)) (fuel : ℕ) :
    (solutionsAux oracle gap best_obj limit iteration cuts fuel).Pairwise
      (fun e e' => e.2.2 ≠ e'.2.2) := by
  induction fuel generalizing best_obj limit iteration cuts with
  | zero => rw [solutionsAux_zero]; exact List.Pairwise.nil
  | succ fuel ih =>
      cases hor : oracle cuts with
      | infeasible =>
          rw [solutionsAux_infeasible _ _ _ _ _ _ _ hor]
          exact List.Pairwise.nil
      | ok status obj sel =>
          rw [solutionsAux_ok _ _ _ _ _ _ _ _ _ _ hor]
          by_cases hst : status ≠ "optimal"
          · rw [if_pos hst]; exact List.Pairwise.nil
          · rw [if_neg hst]
            by_cases hgate : SOLVER_PRECISON ≤
                |obj - (1 + gap) * best_obj.getD obj| ∧
                (1 + gap) * best_obj.getD obj < obj
            · rw [if_pos hgate]; exact List.Pairwise.nil
            · rw [if_neg hgate]
              refine List.Pairwise.cons ?_ ?_
              · intro e' he'
                by_cases hcont : limit.getD 0 = 0 ∨
                    iteration + 1 < limit.getD 0
                · rw [if_pos hcont] at he'
                  have hresp := solutionsAux_respects_cuts oracle hsound gap
                    fuel _ limit (iteration + 1) (cuts ++ [sel]) e' he' sel
                    (List.mem_append_right _ (List.mem_cons_self _ _))
                  intro hEq
                  apply hresp
                  show sel ⊆ e'.2.2.toFinset
                  rw [← hEq, sorted_tuple_toFinset]
                · rw [if_neg hcont] at he'
                  simp at he'
              · by_cases hcont : limit.getD 0 = 0 ∨
                    iteration + 1 < limit.getD 0
                · rw [if_pos hcont]
                  exact ih _ _ _ _
                · rw [if_neg hcont]
                  exact List.Pairwise.nil

/-- A two-solution engine for the distinctness witness: first `{x1}`, then —
once `{x1}` is cut off — `{x2}`, then infeasible. -/
def c2Oracle : Oracle := fun cuts =>
  match cuts with
  | [] => .ok "optimal" 1 {"x1"}
  | [c] => if c = {"x1"} then .ok "optimal" 1 {"x2"} else .infeasible
  | _ => .infeasible

lemma c2Oracle_sound : OracleSound c2Oracle := by
  intro cuts status obj sel h c hc
  rcases cuts with _ | ⟨c0, rest0⟩
  · simp at hc
  · rcases rest0 with _ | ⟨c1, rest⟩
    · simp only [c2Oracle] at h
      by_cases h0 : c0 = {"x1"}
      · rw [if_pos h0] at h
        cases h
        rw [List.mem_singleton.mp hc, h0]
        decide
      · rw [if_neg h0] at h
        cases h
    · simp [c2Oracle] at h

/-- **C2 witness.** The distinctness theorem at a concrete sound engine. -/
theorem solutions_distinct_witness :
    (solutionsAux c2Oracle 0 none none 0 [] 5).Pairwise
      (fun e e' => e.2.2 ≠ e'.2.2) :=
  solutions_distinct c2Oracle c2Oracle_sound 0 none none 0 [] 5

/-- The always-infeasible engine. -/
def infOracle : Oracle := fun _ => .infeasible

/-- **C3 (amended).** For an infeasible model the enumerator's sequence is
empty (the `NoSolutionsError` is swallowed, not surfaced); and every solve
that reports status *Optimal* and passes the gap gate produces exactly one
emitted triple `(status, objective, sorted selection)` at the front of the
remaining sequence. -/
theorem solutions_infeasible_empty_optimal_emits (oracle : Oracle)
    (gap : ℚ) (best_obj : Option ℚ) (limit : Option ℕ) (iteration : ℕ)
    (cuts : List (Finset String)) (fuel : ℕ) :
    (oracle cuts = .infeasible →
      solutionsAux oracle gap best_obj limit iteration cuts fuel = []) ∧
    (∀ (obj : ℚ) (sel : Finset String),
      oracle cuts = .ok "optimal" obj sel →
      ¬ (SOLVER_PRECISON ≤ |obj - (1 + gap) * best_obj.getD obj| ∧
          (1 + gap) * best_obj.getD obj < obj) →
      1 ≤ fuel →
      ∃ rest, solutionsAux oracle gap best_obj limit iteration cuts fuel =
        ("optimal", obj, sorted_tuple sel) :: rest) := by
  constructor
  · intro h
    cases fuel with
    | zero => exact solutionsAux_zero _ _ _ _ _ _
    | succ fuel => exact solutionsAux_infeasible _ _ _ _ _ _ _ h
  · intro obj sel hor hgate hfuel
    cases fuel with
    | zero => exact absurd hfuel (by norm_num)
    | succ fuel =>
        rw [solutionsAux_ok _ _ _ _ _ _ _ _ _ _ hor]
        rw [if_neg (by simp)]
        rw [if_neg hgate]
        exact ⟨_, rfl⟩

/-- **C3 witness.** Both parts at concrete engines: the infeasible engine
yields the empty sequence, and an optimal in-gap solve is emitted. -/
theorem solutions_infeasible_empty_optimal_emits_witness :
    solutionsAux infOracle 0 none none 0 [] 3 = [] ∧
    ∃ rest, solutionsAux gapOracle 0 none none 0 [] 3 =
      ("optimal", 1, sorted_tuple {"x1"}) :: rest :=
  ⟨(solutions_infeasible_empty_optimal_emits infOracle 0 none none 0 [] 3).1 rfl,
   (solutions_infeasible_empty_optimal_emits gapOracle 0 none none 0 [] 3).2
     1 {"x1"} rfl (by norm_num [SOLVER_PRECISON]) (by norm_num)⟩

/-- An engine reporting a non-`optimal` status. -/
def feasOracle : Oracle := fun _ => .ok "feasible" 1 {"x1"}

/-- **C3 counterexample.** A solve that is *not* infeasible and whose
objective is within the gap bound, but whose status is `feasible` rather than
`optimal`, is not emitted: the sequence is empty, refuting the claim that
every non-infeasible in-gap solve produces an emitted triple. -/
theorem solutions_feasible_status_not_emitted :
    feasOracle [] = .ok "feasible" 1 {"x1"} ∧
    ¬ (SOLVER_PRECISON ≤ |(1 : ℚ) - (1 + 0) * (Option.getD none 1 : ℚ)| ∧
        (1 + 0) * (Option.getD none 1 : ℚ) < 1) ∧
    solutionsAux feasOracle 0 none none 0 [] 3 = [] := by
  refine ⟨rfl, by norm_num [SOLVER_PRECISON], ?_⟩
  rw [solutionsAux_ok _ _ _ _ _ _ _ _ _ _ (rfl : feasOracle [] = _)]
  rw [if_pos (by decide)]

/-- Helper for C5: with a positive limit `n`, a run already at iteration
`iteration < n` emits at most `n - iteration` further elements. -/
lemma solutionsAux_length_le (oracle : Oracle) (gap : ℚ) (n : ℕ) :
    ∀ (fuel : ℕ) (best_obj : Option ℚ) (iteration : ℕ)
      (cuts : List (Finset String)),
    iteration < n →
    (solutionsAux oracle gap best_obj (some n) iteration cuts fuel).length ≤
      n - iteration := by
  intro fuel
  induction fuel with
  | zero =>
      intro best_obj iteration cuts _
      rw [solutionsAux_zero]
      simp
  | succ fuel ih =>
      intro best_obj iteration cuts hiter
      cases hor : oracle cuts with
      | infeasible =>
          rw [solutionsAux_infeasible _ _ _ _ _ _ _ hor]
          simp
      | ok status obj sel =>
          rw [solutionsAux_ok _ _ _ _ _ _ _ _ _ _ hor]
          by_cases hst : status ≠ "optimal"
          · rw [if_pos hst]; simp
          · rw [if_neg hst]
            by_cases hgate : SOLVER_PRECISON ≤
                |obj - (1 + gap) * best_obj.getD obj| ∧
                (1 + gap) * best_obj.getD obj < obj
            · rw [if_pos hgate]; simp
            · rw [if_neg hgate]
              simp only [Option.getD_some, List.length_cons]
              by_cases hcont : n = 0 ∨ iteration + 1 < n
              · rw [if_pos hcont]
                have hn : iteration + 1 < n := by omega
                have := ih (some (best_obj.getD obj)) (iteration + 1)
                  (cuts ++ [sel]) hn
                omega
              · rw [if_neg hcont]
                simp only [List.length_nil]
                omega

/-- **C5 (amended).** For every *positive* iteration limit `n`, the enumerator
emits at most `n` elements.  (A limit of `0` — like `None` — is falsy in
`not limit` and disables the limit instead.) -/
theorem solutions_limit_bound (oracle : Oracle) (gap : ℚ)
    (best_obj : Option ℚ) (cuts : List (Finset String)) (fuel n : ℕ)
    (hn : 1 ≤ n) :
    (solutionsAux oracle gap best_obj (some n) 0 cuts fuel).length ≤ n := by
  have h := solutionsAux_length_le oracle gap n fuel best_obj 0 cuts (by omega)
  omega

/-- **C5 witness.** The limit bound at a concrete engine and limit 1. -/
theorem solutions_limit_bound_witness :
    (solutionsAux gapOracle 0 none (some 1) 0 [] 3).length ≤ 1 :=
  solutions_limit_bound gapOracle 0 none [] 3 1 (by norm_num)

/-- A three-solution engine: `{x1}`, then `{x2}`, then `{x3}`, then
infeasible, each cut respected. -/
def c5Oracle : Oracle := fun cuts =>
  if ({"x1"} : Finset String) ∉ cuts then .ok "optimal" 1 {"x1"}
  else if ({"x2"} : Finset String) ∉ cuts then .ok "optimal" 1 {"x2"}
  else if ({"x3"} : Finset String) ∉ cuts then .ok "optimal" 1 {"x3"}
  else .infeasible

/-- **C5 counterexample.** With the limit `0` supplied, the enumerator does
*not* emit at most `0` elements: `limit=0` is falsy in `not limit`, so the
enumeration continues and here emits 3 elements. -/
theorem solutions_limit_zero_counterexample :
    (solutionsAux c5Oracle 0 none (some 0) 0 [] 5).length = 3 := by
  have h0 : c5Oracle [] = .ok "optimal" 1 {"x1"} := by decide
  have h1 : c5Oracle [{"x1"}] = .ok "optimal" 1 {"x2"} := by decide
  have h2 : c5Oracle [{"x1"}, {"x2"}] = .ok "optimal" 1 {"x3"} := by decide
  have h3 : c5Oracle [{"x1"}, {"x2"}, {"x3"}] = .infeasible := by decide
  rw [solutionsAux_ok _ _ _ _ _ _ _ _ _ _ h0]
  rw [if_neg (by simp)]
  rw [if_neg (by norm_num [SOLVER_PRECISON])]
  simp only [Option.getD_some, Option.getD_none]
  rw [if_pos (Or.inl (by norm_num))]
  rw [show ([] : List (Finset String)) ++ [({"x1"} : Finset String)] =
    [({"x1"} : Finset String)] from rfl]
  rw [solutionsAux_ok _ _ _ _ _ _ _ _ _ _ h1]
  rw [if_neg (by simp)]
  rw [if_neg (by norm_num [SOLVER_PRECISON])]
  simp only [Option.getD_some, Option.getD_none]
  rw [if_pos (Or.inl (by norm_num))]
  rw [show [({"x1"} : Finset String)] ++ [({"x2"} : Finset String)] =
    [({"x1"} : Finset String), {"x2"}] from rfl]
  rw [solutionsAux_ok _ _ _ _ _ _ _ _ _ _ h2]
  rw [if_neg (by simp)]
  rw [if_neg (by norm_num [SOLVER_PRECISON])]
  simp only [Option.getD_some, Option.getD_none]
  rw [if_pos (Or.inl (by norm_num))]
  rw [show [({"x1"} : Finset String), {"x2"}] ++ [({"x3"} : Finset String)] =
    [({"x1"} : Finset String), {"x2"}, {"x3"}] from rfl]
  rw [solutionsAux_infeasible _ _ _ _ _ _ _ h3]
  simp

/-! ## The solver factory `model` (lines 549-613)

Each `test_*` helper tries to construct its adapter; a missing native package
raises `ImportError` inside the constructor, which the helper catches,
returning `None`.  Whether each import succeeds is the environment's choice
and is a parameter of the embedding.  The dispatch for an explicit name is
`fname = 'test_' + solver; if fname in locals(): return locals()[fname](name)`,
and the local `test_*` functions are exactly `test_gurobi`, `test_scip`,
`test_cbc`, so the recognized explicit names are `gurobi`, `scip`, `cbc`. -/

/-- Which native engine packages import successfully. -/
structure EngineAvailability where
  gurobi : Bool
  scip : Bool
  cbc : Bool
  deriving DecidableEq, Repr

/-- A successfully constructed backend adapter. -/
inductive SolverHandle where
  | gurobi
  | scip
  | cbc
  deriving DecidableEq, Repr

/-- `test_gurobi`: `Gurobi(name)` if gurobipy imports, else `None`. -/
def test_gurobi (av : EngineAvailability) (_name : String) :
    Option SolverHandle :=
  if av.gurobi then some .gurobi else none

/-- `test_scip`: `SCIP(name)` if pyscipopt imports, else `None`. -/
def test_scip (av : EngineAvailability) (_name : String) :
    Option SolverHandle :=
  if av.scip then some .scip else none

/-- `test_cbc`: `CBC(name)` if ortools imports, else `None`. -/
def test_cbc (av : EngineAvailability) (_name : String) :
    Option SolverHandle :=
  if av.cbc then some .cbc else none

/-- The factory `model(name, solver)`.  `Except.error` models an uncaught
`Exception`; note that the explicit-name path returns whatever the `test_*`
helper produced — including `None`. -/
def modelFactory (av : EngineAvailability) (name solver : String) :
    Except String (Option SolverHandle) :=
  if solver = "any" then
    match (match (match test_gurobi av name with
                  | some m => some m
                  | none => test_scip av name) with
           | some m => some m
           | none => test_cbc av name) with
    | some m => .ok (some m)
    | none => .error "No ILP solver found. Aldy cannot operate without an ILP solver. Please install Gurobi, SCIP, or Google OR Tools."
  else if solver = "gurobi" then .ok (test_gurobi av name)
  else if solver = "scip" then .ok (test_scip av name)
  else if solver = "cbc" then .ok (test_cbc av name)
  else .error ("ILP solver " ++ solver ++ " is not supported")

/-- **C9 (code bug).** For an explicit, recognized backend name whose engine
fails to import, the factory does *not* fail: the `test_*` helper catches the
`ImportError` and the factory returns its `None` result as a normal value —
contradicting both the spec (fatal `EngineUnavailable`) and the function's own
docstring ("Raises Exception if no solver is found").  An unrecognized
explicit name does fail immediately, and in "any" mode exhausting all
candidates also fails. -/
theorem modelFactory_explicit_unavailable_returns_none :
    modelFactory ⟨false, true, true⟩ "x" "gurobi" = .ok none ∧
    modelFactory ⟨true, true, true⟩ "x" "lpsolve" =
      .error "ILP solver lpsolve is not supported" ∧
    modelFactory ⟨false, false, false⟩ "x" "any" =
      .error "No ILP solver found. Aldy cannot operate without an ILP solver. Please install Gurobi, SCIP, or Google OR Tools." := by
  refine ⟨rfl, rfl, rfl⟩

/-! ## The MIPCL adapter (lines 459-545)

`MIPCL.addConstr` is `pass`: it returns `None` and registers nothing.
`MIPCL.solve` runs `self.model.optimize()` and then evaluates
`if not model.is_solutionOptimal:` — in that scope `model` is not a local
name, so Python resolves it to the module-global `model`, which is the factory
*function* defined at line 549; a function object has no attribute
`is_solutionOptimal`, so the check raises `AttributeError` on every call
(`status` in the `raise NoSolutionsError(status)` branch would be an undefined
name, but that expression is never reached). -/

/-- The Python runtime errors relevant to `MIPCL.solve`. -/
inductive PyError where
  | nameError (n : String)
  | attributeError (objDesc attr : String)
  | noSolutions (payload : String)
  deriving DecidableEq, Repr

/-- A module-level Python value, as far as attribute access is concerned. -/
inductive PyVal where
  | pyfunc (fname : String)
  | pyclass (cname : String)
  | pyfloat (q : ℚ)
  deriving DecidableEq, Repr

/-- The module-global bindings of `lpinterface.py` after the module has
loaded (imports elided; every name bound at the top level of the file). -/
def lpinterfaceGlobals : List (String × PyVal) :=
  [("SOLVER_PRECISON", .pyfloat SOLVER_PRECISON),
   ("escape_name", .pyfunc "escape_name"),
   ("NoSolutionsError", .pyclass "NoSolutionsError"),
   ("Gurobi", .pyclass "Gurobi"),
   ("SCIP", .pyclass "SCIP"),
   ("CBC", .pyclass "CBC"),
   ("MIPCL", .pyclass "MIPCL"),
   ("model", .pyfunc "model")]

/-- The local names bound in the body of `MIPCL.solve` (its parameters; the
body assigns nothing). -/
def mipclSolveLocals : List String := ["self", "init"]

/-- Python name resolution inside `MIPCL.solve`: locals, then module globals,
else `NameError`.  (A hit on a local is irrelevant below — the names in
question are not local — and is reported as an opaque class value.) -/
def resolveInMipclSolve (n : String) : Except PyError PyVal :=
  if n ∈ mipclSolveLocals then .ok (.pyclass "local")
  else
    match lpinterfaceGlobals.lookup n with
    | some v => .ok v
    | none => .error (.nameError n)

/-- Python attribute access on a module-level value: none of the values above
carries an `is_solutionOptimal` attribute; in particular a function object
does not. -/
def pyGetattr (v : PyVal) (attr : String) : Except PyError PyVal :=
  match v with
  | .pyfunc f => .error (.attributeError f attr)
  | .pyclass c => .error (.attributeError c attr)
  | .pyfloat _ => .error (.attributeError "float" attr)

/-- Python truthiness of the values modelled here. -/
def pyTruthy : PyVal → Bool
  | .pyfunc _ => true
  | .pyclass _ => true
  | .pyfloat q => q ≠ 0

/-- The MIPCL engine-side model state: the constraints that have reached the
engine. -/
structure MipclModelState where
  cons : List LinCon
  deriving DecidableEq, Repr

/-- `MIPCL.addConstr` (lines 475-476): `pass` — no mutation, returns `None`. -/
def MIPCL_addConstr (st : MipclModelState) (_c : LinCon) :
    MipclModelState × Option Unit :=
  (st, none)

/-- `MIPCL.solve` (lines 507-514): after `optimize()`, evaluate the check
`not model.is_solutionOptimal`; `objVal` is what `getObjVal` would return. -/
def MIPCL_solve (objVal : ℚ) : Except PyError (String × ℚ) := do
  let m ← resolveInMipclSolve "model"
  let flag ← pyGetattr m "is_solutionOptimal"
  if pyTruthy flag = false then
    let st ← resolveInMipclSolve "status"
    match st with
    | .pyfunc f => .error (.noSolutions f)
    | .pyclass c => .error (.noSolutions c)
    | .pyfloat _ => .error (.noSolutions "float")
  else
    .ok ("optimal", objVal)

/-- **C10 (amended).** `MIPCL.addConstr` performs no model mutation and
returns `None`, so no constraint registered through the interface reaches the
engine; and every call to `MIPCL.solve` fails before returning — with an
`AttributeError`, because `model` resolves to the module-level factory
function (which lacks `is_solutionOptimal`); the genuinely undefined `status`
is never reached.  `MIPCL.solve` therefore never returns a
`(status, objective)` pair. -/
theorem mipcl_addConstr_noop_solve_fails :
    (∀ (st : MipclModelState) (c : LinCon), MIPCL_addConstr st c = (st, none)) ∧
    (∀ objVal : ℚ, MIPCL_solve objVal =
      .error (.attributeError "model" "is_solutionOptimal")) := by
  refine ⟨fun st c => rfl, fun objVal => rfl⟩

/-- **C10 counterexample.** The failure is an `AttributeError`, not the
undefined-name (`NameError`) failure the claim describes: `model` *is*
resolvable in `MIPCL.solve` — to the module-level factory function. -/
theorem mipcl_solve_not_nameError :
    MIPCL_solve 0 ≠ .error (.nameError "model") ∧
    MIPCL_solve 0 ≠ .error (.nameError "status") ∧
    MIPCL_solve 0 = .error (.attributeError "model" "is_solutionOptimal") ∧
    resolveInMipclSolve "model" = .ok (.pyfunc "model") := by
  have h : MIPCL_solve 0 = .error (.attributeError "model" "is_solutionOptimal") := rfl
  refine ⟨by rw [h]; simp, by rw [h]; simp, h, rfl⟩

end LPInterface
